import Mathlib

/-!
Verification of the LNPBP-4 multi-protocol commitment tree construction
(commit_verify/src/mpc/tree.rs) and of the blind-outpoint conversions
(src/seals/blind.rs), via a shallow embedding in Lean.

Modelling conventions:
* A ProtocolId is a 32-byte value; the reduction function interprets those
  bytes as an unsigned little-endian 256-bit integer.  Since that
  interpretation is a bijection, ProtocolId is modelled directly as the
  natural number it denotes (a value below 2 to the 256).  Message values are
  opaque 32-byte digests modelled as naturals.
* Ordered maps (the BTreeMap of the builder, the confined MessageMap and the
  position map) are modelled as association lists.  The builder iterates the
  source map in ascending key order; the list models that iteration sequence.
  Success of the placement loop and the resulting key-value association do
  not depend on the iteration order.
* Machine integers are naturals; subtraction saturates exactly as
  saturating_sub does, and the u64/u32 truncations of the reduction function
  are written explicitly as remainders modulo 2 to the 64 and 2 to the 32.
* Code that can panic is modelled as Option-returning: the SmallVec
  confinement inside MerkleTree::root (at most 65535 = u16::MAX leaves)
  yields none where the Rust code would panic in try_from_iter.
-/

namespace Mpc

/-- Errors of MerkleTree::try_commit (tree.rs, mod commit, enum Error). -/
inductive Error where
  | Empty : Error
  | TooManyMessages (n : Nat) : Error
  | CantFitInMaxSlots (n : Nat) : Error
deriving DecidableEq

/-- The builder input (struct MultiSource; its definition sits in the mpc
module outside the given sources, modelled from the spec section 3:
a ProtocolId-to-Message map, a minimum depth in 0..=31 (u5) and an optional
static 64-bit entropy).  The messages list models the map iterated in
ascending key order. -/
structure MultiSource where
  min_depth : Nat
  messages : List (Nat × Nat)
  static_entropy : Option Nat
deriving DecidableEq

/-- Complete information about an LNPBP-4 merkle tree (struct MerkleTree in
tree.rs): depth (u5), entropy (u64), cofactor (u16), the original message
map, and the position map from slot to (protocol id, message). -/
structure MerkleTree where
  depth : Nat
  entropy : Nat
  cofactor : Nat
  messages : List (Nat × Nat)
  map : List (Nat × Nat × Nat)
deriving DecidableEq

/-- fn protocol_id_pos (tree.rs lines 177-182): the little-endian 256-bit
value of the protocol id, reduced modulo the saturating difference
width - cofactor floored at 1, the remainder then truncated through
low_u64() and a cast to u32. -/
def protocol_id_pos (protocol_id cofactor width : Nat) : Nat :=
  protocol_id % Nat.max (width - cofactor) 1 % 2 ^ 64 % 2 ^ 32

/-- The trial placement of the builder (tree.rs lines 152-156): insert each
message at its computed position into a fresh map, failing on the first
position collision.  BTreeMap::insert returns an occupant exactly when the
key is already present, which the any-test models; the accumulator keeps
insertion order, which leaves the association unchanged. -/
def place (cofactor width : Nat) :
    List (Nat × Nat) → List (Nat × Nat × Nat) → Option (List (Nat × Nat × Nat))
  | [], acc => some acc
  | (protocol, msg) :: rest, acc =>
    if acc.any (fun e => e.1 == protocol_id_pos protocol cofactor width) then
      none
    else
      place cofactor width rest
        (acc ++ [(protocol_id_pos protocol cofactor width, protocol, msg)])

/-- The cofactor loop of the builder (tree.rs line 151): try each cofactor in
ascending order, steps many starting at first, returning the first cofactor
whose placement is collision-free together with its position map. -/
def searchCofactors (msgs : List (Nat × Nat)) (width : Nat) :
    Nat → Nat → Option (Nat × List (Nat × Nat × Nat))
  | _, 0 => none
  | first, steps + 1 =>
    match place first width msgs [] with
    | some m => some (first, m)
    | none => searchCofactors msgs width (first + 1) steps

/-- The depth loop of the builder (tree.rs lines 148-172): at each depth the
width is 2 to the depth; when the width reaches the message count the
cofactors 0 ..= min(prev_width, 500) are tried; otherwise (or when all
cofactors collide) the search moves to the next depth with prev_width set to
the current width.  The fuel argument models the u5 overflow check of
depth.checked_add(1): called with fuel = 32 - min_depth it visits exactly the
depths min_depth ..= 31 and returns none where the Rust loop reports
CantFitInMaxSlots. -/
def buildLoop (entropy : Nat) (msgs : List (Nat × Nat)) :
    Nat → Nat → Nat → Option MerkleTree
  | 0, _, _ => none
  | fuel + 1, depth, prevWidth =>
    if msgs.length ≤ 2 ^ depth then
      match searchCofactors msgs (2 ^ depth) 0 (Nat.min prevWidth 500 + 1) with
      | some (c, m) => some (MerkleTree.mk depth entropy c msgs m)
      | none => buildLoop entropy msgs fuel (depth + 1) (2 ^ depth)
    else buildLoop entropy msgs fuel (depth + 1) (2 ^ depth)

/-- fn try_commit (tree.rs lines 121-173).  The rng argument models the value
thread_rng().next_u64() would produce; it is consulted only when the source
carries no static entropy, mirroring unwrap_or_else. -/
def try_commit (rng : Nat) (source : MultiSource) : Except Error MerkleTree :=
  if source.min_depth = 0 ∧ source.messages = [] then Except.error Error.Empty
  else if 2 ^ 31 < source.messages.length then
    Except.error (Error.TooManyMessages source.messages.length)
  else
    match buildLoop (source.static_entropy.getD rng) source.messages
        (32 - source.min_depth) source.min_depth 1 with
    | some tree => Except.ok tree
    | none => Except.error (Error.CantFitInMaxSlots source.messages.length)

/-- fn width (tree.rs line 191): 2 to the depth. -/
def MerkleTree.width (t : MerkleTree) : Nat := 2 ^ t.depth

/-- The leaf of the tree (mpc/atoms.rs, outside the given sources).  Modelled
from the spec: a leaf is either Inhabited, carrying a protocol/message pair,
or an Entropy placeholder derived from the tree entropy and the position. -/
inductive Leaf where
  | inhabited (protocol : Nat) (msg : Nat) : Leaf
  | entropy (ent : Nat) (pos : Nat) : Leaf
deriving DecidableEq

/-- BTreeMap::get on the position map: the value stored at a position. -/
def mapLookup (m : List (Nat × Nat × Nat)) (pos : Nat) : Option (Nat × Nat) :=
  (m.find? (fun e => e.1 == pos)).map Prod.snd

/-- The ordered leaf sequence of MerkleTree::root (tree.rs lines 70-75):
for each position 0 ..< width in ascending order, an inhabited leaf from the
map entry when the position is occupied, an entropy leaf from the tree
entropy and the position otherwise. -/
def MerkleTree.leaves (t : MerkleTree) : List Leaf :=
  (List.range t.width).map (fun pos =>
    match mapLookup t.map pos with
    | some (protocol, msg) => Leaf.inhabited protocol msg
    | none => Leaf.entropy t.entropy pos)

/-- u64::to_be_bytes: the eight big-endian bytes of a 64-bit value. -/
def u64ToBeBytes (x : Nat) : List Nat :=
  [x / 2 ^ 56 % 256, x / 2 ^ 48 % 256, x / 2 ^ 40 % 256, x / 2 ^ 32 % 256,
    x / 2 ^ 24 % 256, x / 2 ^ 16 % 256, x / 2 ^ 8 % 256, x % 256]

/-- fn root (tree.rs lines 69-78).  The external merklization primitive
(MerkleNode::merklize, outside the given sources) is an arbitrary function of
the 8-byte big-endian domain tag and the leaf list, passed as a parameter
together with the 64-bit tag constant MERKLE_LNPBP4_TAG (also external).
The leaf iterator is collected into a SmallVec, a vector confined to at most
u16::MAX = 65535 elements; try_from_iter fails beyond that bound and the
expect call panics, modelled by none. -/
def MerkleTree.root (merklize : List Nat → List Leaf → Nat) (mtag : Nat)
    (t : MerkleTree) : Option Nat :=
  if t.leaves.length ≤ 65535 then some (merklize (u64ToBeBytes mtag) t.leaves)
  else none

/-- impl Conceal for MerkleTree (tree.rs lines 81-85): conceal is root. -/
def MerkleTree.conceal (merklize : List Nat → List Leaf → Nat) (mtag : Nat)
    (t : MerkleTree) : Option Nat :=
  MerkleTree.root merklize mtag t

/-- The 32-byte domain constant of impl CommitmentId for MerkleTree
(tree.rs line 64), as its byte sequence. -/
def MerkleTree.TAG : List Nat :=
  ("urn:lnpbp:lnpbp0004:tree:v01#23A".toList).map Char.toNat

/-- The commitment encoding of the tree.  The derive at tree.rs lines 42-43
declares the conceal strategy with strict encoding: the commit encoding is
the strict encoding of the concealed form, i.e. of the root only.  The
strict encoder for a 32-byte node is external and passed as a parameter. -/
def MerkleTree.commit_encode (merklize : List Nat → List Leaf → Nat)
    (mtag : Nat) (enc : Nat → List Nat) (t : MerkleTree) : Option (List Nat) :=
  (MerkleTree.conceal merklize mtag t).map enc

/-- Modelled from the spec: the commitment identifier of the CommitmentId
trait (its default method lives outside the given sources) is the tag-hash,
under the fixed 32-byte TAG constant, of the commitment encoding of the
value (spec section 4.4).  The tag-hash primitive is external and passed as
a parameter. -/
def MerkleTree.commitment_id (merklize : List Nat → List Leaf → Nat)
    (mtag : Nat) (tag_hash : List Nat → List Nat → Nat) (enc : Nat → List Nat)
    (t : MerkleTree) : Option Nat :=
  (MerkleTree.commit_encode merklize mtag enc t).map (tag_hash MerkleTree.TAG)

/-- A concrete instantiation of the external merklization primitive, used
only to evaluate the embedding on explicit inputs. -/
def constMerklize : List Nat → List Leaf → Nat := fun _ _ => 0

end Mpc

namespace Seals

/-- bitcoin::OutPoint as consumed by src/seals/blind.rs: a transaction id
(opaque 32-byte digest, modelled as a natural) and an output index (u32). -/
structure OutPoint where
  txid : Nat
  vout : Nat
deriving DecidableEq

/-- struct OutpointReveal (blind.rs lines 45-55): blinding factor (u64),
txid and vout. -/
structure OutpointReveal where
  blinding : Nat
  txid : Nat
  vout : Nat
deriving DecidableEq

/-- impl From of OutpointReveal for OutPoint (blind.rs lines 57-62):
OutPoint::new(reveal.txid, reveal.vout). -/
def OutPoint.fromReveal (reveal : OutpointReveal) : OutPoint :=
  OutPoint.mk reveal.txid reveal.vout

/-- impl From of OutPoint for OutpointReveal (blind.rs lines 64-72): a fresh
blinding factor from the randomness source (the rng argument models
thread_rng().next_u64()), txid and vout copied. -/
def OutpointReveal.fromOutPoint (rng : Nat) (outpoint : OutPoint) :
    OutpointReveal :=
  OutpointReveal.mk rng outpoint.txid outpoint.vout

end Seals

namespace Mpc

/-- Properties of a successful trial placement: the stored values are the
accumulator values followed by the messages in order, every entry either was
already in the accumulator or sits at its computed position, and the stored
positions stay pairwise distinct when the accumulator positions were. -/
theorem place_some (cofactor width : Nat) :
    ∀ (msgs : List (Nat × Nat)) (acc m : List (Nat × Nat × Nat)),
      place cofactor width msgs acc = some m →
      m.map Prod.snd = acc.map Prod.snd ++ msgs
      ∧ (∀ e ∈ m, e ∈ acc ∨ e.1 = protocol_id_pos e.2.1 cofactor width)
      ∧ ((acc.map Prod.fst).Nodup → (m.map Prod.fst).Nodup) := by
  intro msgs
  induction msgs with
  | nil =>
    intro acc m h
    simp only [place] at h
    cases h
    exact ⟨by simp, fun e he => Or.inl he, fun hn => hn⟩
  | cons pm rest ih =>
    intro acc m h
    obtain ⟨protocol, msg⟩ := pm
    simp only [place] at h
    by_cases hany :
        acc.any (fun e => e.1 == protocol_id_pos protocol cofactor width)
    · rw [if_pos hany] at h
      cases h
    · rw [if_neg hany] at h
      obtain ⟨h1, h2, h3⟩ :=
        ih (acc ++ [(protocol_id_pos protocol cofactor width, protocol, msg)])
          m h
      have hpos : protocol_id_pos protocol cofactor width ∉ acc.map Prod.fst := by
        intro hmem
        obtain ⟨e, he, heq⟩ := List.mem_map.mp hmem
        exact hany (List.any_eq_true.mpr ⟨e, he, by simp [heq]⟩)
      refine ⟨?_, ?_, ?_⟩
      · rw [h1]; simp
      · intro e he
        rcases h2 e he with hin | heq
        · rcases List.mem_append.mp hin with hin2 | hin2
          · exact Or.inl hin2
          · simp only [List.mem_singleton] at hin2
            subst hin2
            exact Or.inr rfl
        · exact Or.inr heq
      · intro hn
        apply h3
        rw [List.map_append]
        refine List.Nodup.append hn (List.nodup_singleton _) ?_
        intro x hx hx2
        simp only [List.map_cons, List.map_nil, List.mem_singleton] at hx2
        subst hx2
        exact hpos hx

/-- A successful cofactor search yields a cofactor inside the tried range
whose placement over a fresh map succeeds. -/
theorem searchCofactors_some (msgs : List (Nat × Nat)) (width : Nat) :
    ∀ (steps first c : Nat) (m : List (Nat × Nat × Nat)),
      searchCofactors msgs width first steps = some (c, m) →
      first ≤ c ∧ c < first + steps ∧ place c width msgs [] = some m := by
  intro steps
  induction steps with
  | zero =>
    intro first c m h
    simp only [searchCofactors] at h
    exact Option.noConfusion h
  | succ steps ih =>
    intro first c m h
    simp only [searchCofactors] at h
    cases hp : place first width msgs [] with
    | some m0 =>
      rw [hp] at h
      simp only [Option.some.injEq, Prod.mk.injEq] at h
      obtain ⟨hc, hm⟩ := h
      subst hc
      subst hm
      exact ⟨Nat.le_refl _, by omega, hp⟩
    | none =>
      rw [hp] at h
      obtain ⟨h1, h2, h3⟩ := ih (first + 1) c m h
      exact ⟨by omega, by omega, h3⟩

/-- The cofactor search fails exactly when every cofactor in the tried range
collides. -/
theorem searchCofactors_none (msgs : List (Nat × Nat)) (width : Nat) :
    ∀ (steps first : Nat),
      searchCofactors msgs width first steps = none ↔
      ∀ i, i < steps → place (first + i) width msgs [] = none := by
  intro steps
  induction steps with
  | zero =>
    intro first
    simp [searchCofactors]
  | succ steps ih =>
    intro first
    simp only [searchCofactors]
    cases hp : place first width msgs [] with
    | some m0 =>
      constructor
      · intro h
        cases h
      · intro hall
        have h0 := hall 0 (by omega)
        rw [Nat.add_zero, hp] at h0
        cases h0
    | none =>
      rw [ih (first + 1)]
      constructor
      · intro h i hi
        cases i with
        | zero =>
          rw [Nat.add_zero]
          exact hp
        | succ i =>
          have heq : first + (i + 1) = first + 1 + i := by omega
          rw [heq]
          exact h i (by omega)
      · intro h i hi
        have heq : first + 1 + i = first + (i + 1) := by omega
        rw [heq]
        exact h (i + 1) (by omega)

end Mpc

namespace Mpc

/-- Properties of a successful depth search: the resulting tree keeps the
entropy and the messages, its depth stays at most 31, its width covers the
message count, its cofactor lies below the width, and its position map is the
successful placement at its own depth and cofactor. -/
theorem buildLoop_some (entropy : Nat) (msgs : List (Nat × Nat)) :
    ∀ (fuel depth prevWidth : Nat) (t : MerkleTree),
      buildLoop entropy msgs fuel depth prevWidth = some t →
      prevWidth ≤ 2 ^ depth → depth + fuel ≤ 32 →
      t.entropy = entropy ∧ t.messages = msgs ∧ t.depth ≤ 31
      ∧ msgs.length ≤ 2 ^ t.depth ∧ t.cofactor ≤ 2 ^ t.depth
      ∧ place t.cofactor (2 ^ t.depth) msgs [] = some t.map := by
  intro fuel
  induction fuel with
  | zero =>
    intro depth prevWidth t h hpw hle
    simp only [buildLoop] at h
    exact Option.noConfusion h
  | succ fuel ih =>
    intro depth prevWidth t h hpw hle
    have hmono : 2 ^ depth ≤ 2 ^ (depth + 1) :=
      Nat.pow_le_pow_right (by norm_num) (by omega)
    simp only [buildLoop] at h
    by_cases hg : msgs.length ≤ 2 ^ depth
    · rw [if_pos hg] at h
      split at h
      next c m hs =>
        simp only [Option.some.injEq] at h
        subst h
        obtain ⟨h1, h2, h3⟩ :=
          searchCofactors_some msgs (2 ^ depth) (Nat.min prevWidth 500 + 1)
            0 c m hs
        have hminle : Nat.min prevWidth 500 ≤ prevWidth := Nat.min_le_left _ _
        refine ⟨rfl, rfl, ?_, ?_, ?_, ?_⟩
        · show depth ≤ 31
          omega
        · exact hg
        · show c ≤ 2 ^ depth
          omega
        · exact h3
      next hs =>
        exact ih (depth + 1) (2 ^ depth) t h hmono (by omega)
    · rw [if_neg hg] at h
      exact ih (depth + 1) (2 ^ depth) t h hmono (by omega)

/-- The depth search fails exactly when, at every depth in the remaining
range whose width covers the message count, every cofactor up to
min(prev_width, 500) collides; the previous width is the given one at the
first depth and half the width at each later depth. -/
theorem buildLoop_none (entropy : Nat) (msgs : List (Nat × Nat)) :
    ∀ (fuel depth prevWidth : Nat),
      buildLoop entropy msgs fuel depth prevWidth = none ↔
      ∀ d, depth ≤ d → d < depth + fuel → msgs.length ≤ 2 ^ d →
        ∀ c, c ≤ Nat.min (if d = depth then prevWidth else 2 ^ (d - 1)) 500 →
          place c (2 ^ d) msgs [] = none := by
  intro fuel
  induction fuel with
  | zero =>
    intro depth prevWidth
    constructor
    · intro _ d h1 h2
      exact absurd h2 (by omega)
    · intro _
      rfl
  | succ fuel ih =>
    intro depth prevWidth
    have hshift : ∀ d, d ≠ depth →
        (if d = depth + 1 then 2 ^ depth else 2 ^ (d - 1)) = 2 ^ (d - 1) := by
      intro d _
      by_cases hd3 : d = depth + 1
      · rw [if_pos hd3]
        congr 1
        omega
      · rw [if_neg hd3]
    simp only [buildLoop]
    by_cases hg : msgs.length ≤ 2 ^ depth
    · rw [if_pos hg]
      split
      next c0 m0 hs =>
        constructor
        · intro h
          exact Option.noConfusion h
        · intro hall
          exfalso
          obtain ⟨h1, h2, h3⟩ :=
            searchCofactors_some msgs (2 ^ depth) (Nat.min prevWidth 500 + 1)
              0 c0 m0 hs
          have hb : c0 ≤
              Nat.min (if depth = depth then prevWidth else 2 ^ (depth - 1))
                500 := by
            rw [if_pos rfl]
            omega
          have hplace := hall depth (Nat.le_refl _) (by omega) hg c0 hb
          rw [hplace] at h3
          exact Option.noConfusion h3
      next hs =>
        rw [ih (depth + 1) (2 ^ depth)]
        constructor
        · intro h d hd1 hd2 hlen c hc
          by_cases hdd : d = depth
          · subst hdd
            rw [if_pos rfl] at hc
            have hnone :=
              (searchCofactors_none msgs (2 ^ d)
                (Nat.min prevWidth 500 + 1) 0).mp hs c (by omega)
            rw [Nat.zero_add] at hnone
            exact hnone
          · refine h d (by omega) (by omega) hlen c ?_
            rw [hshift d hdd]
            rw [if_neg hdd] at hc
            exact hc
        · intro h d hd1 hd2 hlen c hc
          have hdd : d ≠ depth := by omega
          refine h d (by omega) (by omega) hlen c ?_
          rw [if_neg hdd]
          rw [hshift d hdd] at hc
          exact hc
    · rw [if_neg hg]
      rw [ih (depth + 1) (2 ^ depth)]
      constructor
      · intro h d hd1 hd2 hlen c hc
        by_cases hdd : d = depth
        · subst hdd
          exact absurd hlen hg
        · refine h d (by omega) (by omega) hlen c ?_
          rw [hshift d hdd]
          rw [if_neg hdd] at hc
          exact hc
      · intro h d hd1 hd2 hlen c hc
        have hdd : d ≠ depth := by omega
        refine h d (by omega) (by omega) hlen c ?_
        rw [if_neg hdd]
        rw [hshift d hdd] at hc
        exact hc

/-- Inversion for a successful try_commit: the returned tree comes from the
depth search started at the minimum depth with prev_width 1 and carries the
resolved entropy, the source messages, a depth at most 31, a width covering
the message count, a cofactor at most the width, and a collision-free
placement as its map. -/
theorem try_commit_ok_inv (rng : Nat) (src : MultiSource) (t : MerkleTree)
    (h : try_commit rng src = Except.ok t) :
    t.entropy = src.static_entropy.getD rng ∧ t.messages = src.messages
    ∧ t.depth ≤ 31 ∧ src.messages.length ≤ 2 ^ t.depth
    ∧ t.cofactor ≤ 2 ^ t.depth
    ∧ place t.cofactor (2 ^ t.depth) src.messages [] = some t.map := by
  unfold try_commit at h
  by_cases h1 : src.min_depth = 0 ∧ src.messages = []
  · rw [if_pos h1] at h
    exact Except.noConfusion h
  · rw [if_neg h1] at h
    by_cases h2 : 2 ^ 31 < src.messages.length
    · rw [if_pos h2] at h
      exact Except.noConfusion h
    · rw [if_neg h2] at h
      split at h
      next t0 hb =>
        have ht : t0 = t := by
          simp only [Except.ok.injEq] at h
          exact h
        subst ht
        by_cases hmd : src.min_depth ≤ 32
        · exact buildLoop_some _ _ _ _ _ _ hb
            (Nat.one_le_pow _ _ (by norm_num)) (by omega)
        · exfalso
          have hz : 32 - src.min_depth = 0 := by omega
          rw [hz] at hb
          exact Option.noConfusion hb
      next hb =>
        exact Except.noConfusion h

/-- The leaf sequence of a tree has exactly width entries. -/
theorem MerkleTree.leaves_length (t : MerkleTree) :
    t.leaves.length = t.width := by
  simp [MerkleTree.leaves]

end Mpc

namespace Mpc

/-- C2: for every protocol id, cofactor, and u32 width greater than zero,
protocol_id_pos equals the little-endian 256-bit value of the protocol id
reduced modulo max(width - cofactor, 1), the subtraction saturating at zero;
the result is strictly below that modulus, the modulus is at most the width,
and hence the truncation to 32 bits loses no information. -/
theorem protocol_id_pos_spec (protocol_id cofactor width : Nat)
    (h0 : 0 < width) (h32 : width < 2 ^ 32) :
    protocol_id_pos protocol_id cofactor width
      = protocol_id % Nat.max (width - cofactor) 1
    ∧ protocol_id % Nat.max (width - cofactor) 1 < Nat.max (width - cofactor) 1
    ∧ Nat.max (width - cofactor) 1 ≤ width
    ∧ protocol_id_pos protocol_id cofactor width < width := by
  have hM : 0 < Nat.max (width - cofactor) 1 :=
    Nat.lt_of_lt_of_le Nat.zero_lt_one (Nat.le_max_right _ _)
  have hMw : Nat.max (width - cofactor) 1 ≤ width :=
    Nat.max_le.mpr ⟨Nat.sub_le _ _, h0⟩
  have hmod : protocol_id % Nat.max (width - cofactor) 1
      < Nat.max (width - cofactor) 1 := Nat.mod_lt _ hM
  have hpow : (2 : Nat) ^ 32 < 2 ^ 64 := by norm_num
  have h64 : protocol_id % Nat.max (width - cofactor) 1 < 2 ^ 64 := by omega
  have h32b : protocol_id % Nat.max (width - cofactor) 1 < 2 ^ 32 := by omega
  have heq : protocol_id_pos protocol_id cofactor width
      = protocol_id % Nat.max (width - cofactor) 1 := by
    unfold protocol_id_pos
    rw [Nat.mod_eq_of_lt h64, Nat.mod_eq_of_lt h32b]
  refine ⟨heq, hmod, hMw, ?_⟩
  rw [heq]
  omega

/-- Witness for C2 at protocol id 300, cofactor 2, width 8. -/
theorem protocol_id_pos_spec_witness :
    0 < 8 ∧ 8 < 2 ^ 32
    ∧ (protocol_id_pos 300 2 8 = 300 % Nat.max (8 - 2) 1
      ∧ 300 % Nat.max (8 - 2) 1 < Nat.max (8 - 2) 1
      ∧ Nat.max (8 - 2) 1 ≤ 8
      ∧ protocol_id_pos 300 2 8 < 8) :=
  ⟨by decide, by decide, protocol_id_pos_spec 300 2 8 (by decide) (by decide)⟩

/-- C5: try_commit reports Empty exactly when the minimum depth is zero and
the message map is empty; in particular an empty map with positive minimum
depth is not reported as Empty. -/
theorem try_commit_empty_iff (rng : Nat) (src : MultiSource) :
    try_commit rng src = Except.error Error.Empty ↔
      src.min_depth = 0 ∧ src.messages = [] := by
  unfold try_commit
  by_cases h1 : src.min_depth = 0 ∧ src.messages = []
  · rw [if_pos h1]
    simp [h1]
  · rw [if_neg h1]
    by_cases h2 : 2 ^ 31 < src.messages.length
    · rw [if_pos h2]
      simp [h1]
    · rw [if_neg h2]
      split
      next t0 hb =>
        simp [h1]
      next hb =>
        simp [h1]

/-- C6: try_commit reports TooManyMessages with the message count exactly
when that count exceeds 2 to the 31, and never otherwise. -/
theorem try_commit_too_many_iff (rng : Nat) (src : MultiSource) (n : Nat) :
    try_commit rng src = Except.error (Error.TooManyMessages n) ↔
      2 ^ 31 < src.messages.length ∧ n = src.messages.length := by
  unfold try_commit
  by_cases h1 : src.min_depth = 0 ∧ src.messages = []
  · rw [if_pos h1]
    constructor
    · intro h
      exact absurd h (by simp)
    · intro hx
      exact absurd hx.1 (by rw [h1.2]; simp)
  · rw [if_neg h1]
    by_cases h2 : 2 ^ 31 < src.messages.length
    · rw [if_pos h2]
      constructor
      · intro h
        simp only [Except.error.injEq, Error.TooManyMessages.injEq] at h
        exact ⟨h2, h.symm⟩
      · intro hx
        rw [hx.2]
    · rw [if_neg h2]
      split
      next t0 hb =>
        constructor
        · intro h
          exact Except.noConfusion h
        · intro hx
          exact absurd hx.1 h2
      next hb =>
        constructor
        · intro h
          simp only [Except.error.injEq] at h
          exact Error.noConfusion h
        · intro hx
          exact absurd hx.1 h2

/-- C8: with a static entropy present in the source, try_commit does not
consult the randomness source: any two invocations on the same MultiSource
return identical results in every field. -/
theorem try_commit_deterministic (rng1 rng2 : Nat) (src : MultiSource)
    (e : Nat) (h : src.static_entropy = some e) :
    try_commit rng1 src = try_commit rng2 src := by
  unfold try_commit
  rw [h]
  exact rfl

/-- Witness for C8 on a source with static entropy 7 and rng values 0, 5. -/
theorem try_commit_deterministic_witness :
    (MultiSource.mk 1 [(3, 4)] (some 7)).static_entropy = some 7
    ∧ try_commit 0 (MultiSource.mk 1 [(3, 4)] (some 7))
        = try_commit 5 (MultiSource.mk 1 [(3, 4)] (some 7)) :=
  ⟨rfl, try_commit_deterministic 0 5 (MultiSource.mk 1 [(3, 4)] (some 7)) 7 rfl⟩

/-- C4: the commitment identifier is the tag-hash, under the fixed 32-byte
TAG constant, of the encoding of the Merkle root alone, and the commitment
encoding serializes only the concealed root, which is the root itself. -/
theorem commitment_id_spec (merklize : List Nat → List Leaf → Nat)
    (mtag : Nat) (tag_hash : List Nat → List Nat → Nat) (enc : Nat → List Nat)
    (t : MerkleTree) :
    MerkleTree.commitment_id merklize mtag tag_hash enc t
      = (MerkleTree.root merklize mtag t).map
          (fun r => tag_hash MerkleTree.TAG (enc r))
    ∧ MerkleTree.commit_encode merklize mtag enc t
      = (MerkleTree.root merklize mtag t).map enc
    ∧ MerkleTree.conceal merklize mtag t = MerkleTree.root merklize mtag t := by
  refine ⟨?_, rfl, rfl⟩
  unfold MerkleTree.commitment_id MerkleTree.commit_encode MerkleTree.conceal
  rw [Option.map_map]
  rfl

/-- C3, evaluation at the failing input: try_commit legitimately builds a
tree of depth 16 (width 65536), but root — and so conceal — on that tree hits
the u16 confinement of the SmallVec leaf vector (65536 items exceed 65535)
and panics, modelled by none, instead of producing the merklization of the
leaf sequence. -/
theorem root_panics_on_wide_tree :
    try_commit 0 (MultiSource.mk 16 [(0, 0)] (some 0))
      = Except.ok (MerkleTree.mk 16 0 0 [(0, 0)] [(0, 0, 0)])
    ∧ (MerkleTree.mk 16 0 0 [(0, 0)] [(0, 0, 0)]).width = 65536
    ∧ MerkleTree.root constMerklize 0
        (MerkleTree.mk 16 0 0 [(0, 0)] [(0, 0, 0)]) = none
    ∧ MerkleTree.conceal constMerklize 0
        (MerkleTree.mk 16 0 0 [(0, 0)] [(0, 0, 0)]) = none := by
  have hroot : MerkleTree.root constMerklize 0
      (MerkleTree.mk 16 0 0 [(0, 0)] [(0, 0, 0)]) = none := by
    have hl : (MerkleTree.mk 16 0 0 [(0, 0)] [(0, 0, 0)]).leaves.length
        = 65536 := by
      rw [MerkleTree.leaves_length]
      rfl
    unfold MerkleTree.root
    rw [hl]
    rfl
  exact ⟨by rfl, by rfl, hroot, hroot⟩

end Mpc

namespace Seals

/-- C10: converting an OutPoint to an OutpointReveal and back yields the
original outpoint; the conversion copies txid and vout exactly and only the
blinding factor comes from the randomness source. -/
theorem outpoint_conversion_roundtrip (rng : Nat) (o : OutPoint) :
    OutPoint.fromReveal (OutpointReveal.fromOutPoint rng o) = o
    ∧ (OutpointReveal.fromOutPoint rng o).txid = o.txid
    ∧ (OutpointReveal.fromOutPoint rng o).vout = o.vout
    ∧ (OutpointReveal.fromOutPoint rng o).blinding = rng := by
  refine ⟨?_, rfl, rfl, rfl⟩
  cases o
  rfl

end Seals

namespace Mpc

/-- Counterexample to C1: the message map with protocol ids 0 and
2^62 - 2^31 = 2^31 * (2^31 - 1) is non-empty with 2 ≤ 2^31 entries, yet with
min_depth 31 the builder fails: at the only admissible depth 31 both tried
cofactors 0 and 1 give moduli 2^31 and 2^31 - 1, each of which divides the
difference of the two ids, so every placement collides and try_commit
returns CantFitInMaxSlots instead of succeeding. -/
theorem try_commit_success_cex :
    (MultiSource.mk 31 [(0, 0), (2 ^ 62 - 2 ^ 31, 1)] (some 0)).messages ≠ []
    ∧ (MultiSource.mk 31 [(0, 0), (2 ^ 62 - 2 ^ 31, 1)]
        (some 0)).messages.length ≤ 2 ^ 31
    ∧ try_commit 0 (MultiSource.mk 31 [(0, 0), (2 ^ 62 - 2 ^ 31, 1)] (some 0))
        = Except.error (Error.CantFitInMaxSlots 2) :=
  ⟨by decide, by decide, by rfl⟩

/-- C1 as amended: for a non-empty message map of at most 2^31 entries,
try_commit returns either a tree or CantFitInMaxSlots, and whenever it
returns a tree the width covers the message count, the position map values
are exactly the input messages, every entry sits at the position computed by
protocol_id_pos under the tree cofactor and width, and the stored positions
are pairwise distinct. -/
theorem try_commit_ok_or_cant_fit (rng : Nat) (src : MultiSource)
    (h1 : src.messages ≠ []) (h2 : src.messages.length ≤ 2 ^ 31) :
    ((∃ t, try_commit rng src = Except.ok t)
      ∨ try_commit rng src
          = Except.error (Error.CantFitInMaxSlots src.messages.length))
    ∧ ∀ t, try_commit rng src = Except.ok t →
        src.messages.length ≤ t.width
        ∧ t.map.map Prod.snd = src.messages
        ∧ (∀ e ∈ t.map, e.1 = protocol_id_pos e.2.1 t.cofactor t.width)
        ∧ (t.map.map Prod.fst).Nodup := by
  constructor
  · unfold try_commit
    rw [if_neg (fun hc => h1 hc.2), if_neg (by omega)]
    split
    next t0 hb =>
      exact Or.inl ⟨t0, rfl⟩
    next hb =>
      exact Or.inr rfl
  · intro t ht
    obtain ⟨g1, g2, g3, g4, g5, g6⟩ := try_commit_ok_inv rng src t ht
    obtain ⟨p1, p2, p3⟩ :=
      place_some t.cofactor (2 ^ t.depth) src.messages [] t.map g6
    refine ⟨g4, ?_, ?_, p3 (by simp)⟩
    · rw [p1]
      simp
    · intro e he
      rcases p2 e he with hin | heq
      · exact absurd hin (List.not_mem_nil e)
      · exact heq

/-- Witness for the amended C1 on a one-message source with min_depth 0. -/
theorem try_commit_ok_or_cant_fit_witness :
    (MultiSource.mk 0 [(5, 7)] (some 3)).messages ≠ []
    ∧ (MultiSource.mk 0 [(5, 7)] (some 3)).messages.length ≤ 2 ^ 31
    ∧ (MultiSource.mk 0 [(5, 7)] (some 3)).messages.length
        ≤ (MerkleTree.mk 0 3 0 [(5, 7)] [(0, 5, 7)]).width
    ∧ (MerkleTree.mk 0 3 0 [(5, 7)] [(0, 5, 7)]).map.map Prod.snd
        = (MultiSource.mk 0 [(5, 7)] (some 3)).messages
    ∧ ((MerkleTree.mk 0 3 0 [(5, 7)] [(0, 5, 7)]).map.map Prod.fst).Nodup := by
  have h := (try_commit_ok_or_cant_fit 0 (MultiSource.mk 0 [(5, 7)] (some 3))
    (by decide) (by decide)).2 (MerkleTree.mk 0 3 0 [(5, 7)] [(0, 5, 7)])
    (by rfl)
  exact ⟨by decide, by decide, h.1, h.2.1, h.2.2.2⟩

/-- C7: within the u5 depth range, try_commit reports CantFitInMaxSlots with
the message count exactly when the guards pass and the bounded search is
exhausted: at every depth from min_depth up to 31 whose width covers the
message count, every cofactor from 0 up to min(prev_width, 500) inclusive
collides, where prev_width is 1 at the first tried depth and the previous
width (half the current one) afterwards.  Since the model is a total
function, this also renders the termination of the bounded search. -/
theorem try_commit_cant_fit_iff (rng : Nat) (src : MultiSource) (n : Nat)
    (hd : src.min_depth ≤ 31) :
    try_commit rng src = Except.error (Error.CantFitInMaxSlots n) ↔
      (n = src.messages.length
      ∧ ¬ (src.min_depth = 0 ∧ src.messages = [])
      ∧ src.messages.length ≤ 2 ^ 31
      ∧ ∀ d, src.min_depth ≤ d → d ≤ 31 → src.messages.length ≤ 2 ^ d →
          ∀ c,
            c ≤ Nat.min (if d = src.min_depth then 1 else 2 ^ (d - 1)) 500 →
            place c (2 ^ d) src.messages [] = none) := by
  unfold try_commit
  by_cases h1 : src.min_depth = 0 ∧ src.messages = []
  · rw [if_pos h1]
    constructor
    · intro h
      simp only [Except.error.injEq] at h
      exact Error.noConfusion h
    · intro hx
      exact absurd h1 hx.2.1
  · rw [if_neg h1]
    by_cases h2 : 2 ^ 31 < src.messages.length
    · rw [if_pos h2]
      constructor
      · intro h
        simp only [Except.error.injEq] at h
        exact Error.noConfusion h
      · intro hx
        exact absurd hx.2.2.1 (by omega)
    · rw [if_neg h2]
      have hiff := buildLoop_none (src.static_entropy.getD rng) src.messages
        (32 - src.min_depth) src.min_depth 1
      split
      next t0 hb =>
        constructor
        · intro h
          exact Except.noConfusion h
        · intro hx
          exfalso
          have hnone : buildLoop (src.static_entropy.getD rng) src.messages
              (32 - src.min_depth) src.min_depth 1 = none := by
            rw [hiff]
            intro d hd1 hd2 hlen c hc
            exact hx.2.2.2 d hd1 (by omega) hlen c hc
          rw [hnone] at hb
          exact Option.noConfusion hb
      next hb =>
        constructor
        · intro h
          simp only [Except.error.injEq, Error.CantFitInMaxSlots.injEq] at h
          refine ⟨h.symm, h1, by omega, ?_⟩
          intro d hd1 hd2 hlen c hc
          exact hiff.mp hb d hd1 (by omega) hlen c hc
        · intro hx
          rw [hx.1]

/-- Witness for C7 on the exhausted search of the counterexample source:
the instantiated characterization yields the concrete collision at depth 31,
cofactor 1. -/
theorem try_commit_cant_fit_iff_witness :
    place 1 (2 ^ 31) [(0, 0), (2 ^ 62 - 2 ^ 31, 1)] [] = none :=
  ((try_commit_cant_fit_iff 0
      (MultiSource.mk 31 [(0, 0), (2 ^ 62 - 2 ^ 31, 1)] (some 0)) 2
      (by decide)).mp (by rfl)).2.2.2 31 (by decide) (by decide) (by decide)
    1 (by decide)

/-- C9: every tree returned by try_commit satisfies the data-model
invariants: no position collisions in the map, the map values correspond
one-to-one to the retained messages, which are the source messages, the
width is 2 to the depth and at most 2^31, and the cofactor is at most the
width. -/
theorem try_commit_invariants (rng : Nat) (src : MultiSource) (t : MerkleTree)
    (h : try_commit rng src = Except.ok t) :
    (t.map.map Prod.fst).Nodup
    ∧ t.map.map Prod.snd = t.messages
    ∧ t.messages = src.messages
    ∧ t.width = 2 ^ t.depth
    ∧ t.width ≤ 2 ^ 31
    ∧ t.cofactor ≤ t.width := by
  obtain ⟨g1, g2, g3, g4, g5, g6⟩ := try_commit_ok_inv rng src t h
  obtain ⟨p1, p2, p3⟩ :=
    place_some t.cofactor (2 ^ t.depth) src.messages [] t.map g6
  refine ⟨p3 (by simp), ?_, g2, rfl, ?_, g5⟩
  · rw [p1, g2]
    simp
  · show 2 ^ t.depth ≤ 2 ^ 31
    exact Nat.pow_le_pow_right (by norm_num) g3

/-- Witness for C9 on a source with min_depth 2 and one message. -/
theorem try_commit_invariants_witness :
    ((MerkleTree.mk 2 1 0 [(9, 4)] [(1, 9, 4)]).map.map Prod.fst).Nodup
    ∧ (MerkleTree.mk 2 1 0 [(9, 4)] [(1, 9, 4)]).map.map Prod.snd
        = (MerkleTree.mk 2 1 0 [(9, 4)] [(1, 9, 4)]).messages
    ∧ (MerkleTree.mk 2 1 0 [(9, 4)] [(1, 9, 4)]).cofactor
        ≤ (MerkleTree.mk 2 1 0 [(9, 4)] [(1, 9, 4)]).width := by
  have h := try_commit_invariants 0 (MultiSource.mk 2 [(9, 4)] (some 1))
    (MerkleTree.mk 2 1 0 [(9, 4)] [(1, 9, 4)]) (by rfl)
  exact ⟨h.1, h.2.1, h.2.2.2.2.2⟩

end Mpc
